import Mathlib

/-!
Verification of the byte-range segmentation and reassembly core of
pyIDM (`src/pyidm/utils.py`): the range partitioner `size_splitter`,
the range-length helper `get_seg_size`, and the segment merger
`append_parts`.

The Python functions are embedded shallowly:

* Python ints are `Nat`/`Int` (sizes and offsets are non-negative);
* the `for i in range(parts)` loop of `size_splitter` becomes the
  structural recursion `splitLoop` on the remaining iteration count;
* fallible operations (`int(...)` parsing, division by zero) return
  `Option`;
* file-system state visible to `append_parts` is the structure `FS`:
  the target file (`Option` — `open(.., do_not_use)` with mode `rb+`
  fails when the file does not exist and never creates it), the readable
  contents of each segment file by name, and whether the seek/read/write
  step for a segment succeeds.  `append_parts` wraps its whole loop in
  one `try/except Exception` with `return segment_names` in `finally`,
  so in Python it always returns normally; the embedding is accordingly
  a total function returning the final pending list and target contents.
-/

namespace PyIDM

/-- One iteration of the `for i in range(parts)` loop of `size_splitter`
(utils.py lines 277-282), recursing on the number of remaining
iterations.  `sizeM1` is the mutated `size = size - 1` of line 276; the
comparison `size - y < span` is on Python ints, hence on `Int`. -/
def splitLoop (span sizeM1 : Nat) : Nat → Nat → List (Nat × Nat)
  | 0, _ => []
  | n + 1, x =>
    let y0 := x + span - 1
    let y := if (sizeM1 : Int) - (y0 : Int) < (span : Int) then sizeM1 else y0
    (x, y) :: splitLoop span sizeM1 n (y + 1)

/-- `size_splitter` of utils.py lines 262-284, with each emitted string
`f'{x}-{y}'` kept as the numeric pair `(x, y)`.  Returns `none` exactly
when Python raises: `part_size = 0` with `size > 0` makes
`span = 0` and `size // span` a `ZeroDivisionError`. -/
def size_splitter_ranges (size part_size : Nat) : Option (List (Nat × Nat)) :=
  if size = 0 then some [(0, 0)]
  else
    let span := if part_size ≤ size then part_size else size
    if span = 0 then none
    else some (splitLoop span (size - 1) (max (size / span) 1) 0)

/-- `size_splitter` proper, producing the serialized `f'{x}-{y}'` range
strings of the source. -/
def size_splitter (size part_size : Nat) : Option (List String) :=
  (size_splitter_ranges size part_size).map
    (List.map fun p => toString p.1 ++ "-" ++ toString p.2)

/-- Python's `s.split('-')`: cut at every `'-'`, keeping empty pieces,
so the result always has one more piece than there are `'-'`s. -/
def splitDash : List Char → List (List Char)
  | [] => [[]]
  | c :: rest =>
    let r := splitDash rest
    if c = '-' then [] :: r
    else
      match r with
      | [] => [[c]]
      | h :: t => (c :: h) :: t

/-- Decimal digit run: `none` on an empty or non-digit piece, the value
otherwise. -/
def parseDigits : List Char → Option Nat
  | [] => none
  | cs =>
    cs.foldl
      (fun acc c =>
        acc.bind fun a => if c.isDigit then some (a * 10 + (c.toNat - 48)) else none)
      (some 0)

/-- Python's `int(...)` on a split piece: an optional sign followed by
decimal digits; raises (`none`) otherwise. -/
def pyInt : List Char → Option Int
  | '-' :: rest => (parseDigits rest).map fun n => -(n : Int)
  | '+' :: rest => (parseDigits rest).map fun n => (n : Int)
  | cs => (parseDigits cs).map fun n => (n : Int)

/-- The two endpoint parses of `get_seg_size` (utils.py line 296):
`int(seg.split('-')[0]), int(seg.split('-')[1])`.  `none` when Python's
`int(...)` raises or the index `[1]` is out of range (`split` always
has a piece `[0]`). -/
def parseRange (seg : String) : Option (Int × Int) := do
  let pieces := splitDash seg.data
  let s ← pieces.get? 0
  let a ← pyInt s
  let t ← pieces.get? 1
  let b ← pyInt t
  some (a, b)

/-- `get_seg_size` of utils.py lines 294-298:
`size = b - a + 1 if b > 0 else 0`. -/
def get_seg_size (seg : String) : Option Int := do
  let p ← parseRange seg
  some (if p.2 > 0 then p.2 - p.1 + 1 else 0)

/-- `start = int(segment_name.split('-')[0])` of utils.py line 52.  The
first piece of a `'-'`-split never contains `'-'`, so Python's `int`
yields a non-negative value exactly when it parses, and `Int.toNat` is
the identity on it. -/
def parseStart (name : String) : Option Nat :=
  ((splitDash name.data).get? 0).bind fun s => (pyInt s).map Int.toNat

/-- The file system visible to one `append_parts` pass.  `target` is the
contents of the target file when it exists (`open(target, mode rb+)`
fails on a missing file and never creates one); `segments name` is the
readable contents of the segment file `name`, `none` when opening or
reading it raises; `writeOk name` is whether the target seek/write for
that segment completes. -/
structure FS where
  target : Option (Nat → Nat)
  segments : String → Option (List Nat)
  writeOk : String → Bool

/-- `target.seek(start); target.write(data)` (utils.py lines 56-59):
overlay `data` on the file contents starting at absolute offset
`start`; offsets before or after the written span keep their previous
bytes (seek past the end zero-fills implicitly, which the `Nat → Nat`
contents model carries for free). -/
def writeAt (f : Nat → Nat) (start : Nat) (data : List Nat) : Nat → Nat :=
  fun i => if start ≤ i ∧ i < start + data.length then data.getD (i - start) 0 else f i

/-- The `for segment_name in segment_names[:]` loop of utils.py lines
51-62 under the single surrounding `try` of line 49: the first argument
is the remaining snapshot, the second the mutated `segment_names` list.
Any exception — `int(...)` parse failure, a segment that cannot be
opened, a failed write — aborts the whole loop, and `finally` returns
the list as mutated so far. -/
def mergeLoop (fs : FS) : List String → List String → (Nat → Nat) →
    List String × (Nat → Nat)
  | [], names, t => (names, t)
  | seg :: rest, names, t =>
    match parseStart seg with
    | none => (names, t)
    | some start =>
      match fs.segments seg with
      | none => (names, t)
      | some data =>
        if fs.writeOk seg then
          mergeLoop fs rest (names.erase seg) (writeAt t start data)
        else (names, t)

/-- `append_parts` of utils.py lines 44-69.  When the target file cannot
be opened (mode `rb+` on a missing file), the exception is caught by
the same `except` and `finally` returns the untouched list; the target
is never created, so the result's second component stays `none`. -/
def append_parts (fs : FS) (segment_names : List String) :
    List String × Option (Nat → Nat) :=
  match fs.target with
  | none => (segment_names, none)
  | some t =>
    let r := mergeLoop fs segment_names segment_names t
    (r.1, some r.2)

/-- Whether the per-segment step of `mergeLoop` succeeds for a given
name: the start offset parses, the segment file opens and reads, and
the target write completes. -/
def stepOk (fs : FS) (seg : String) : Bool :=
  (parseStart seg).isSome && ((fs.segments seg).isSome && fs.writeOk seg)

/-- The scenario of the missing-segment example: three pending ranges,
the target file exists (all zeros), the segment files for `0-99` and
`200-299` are present with known byte patterns, the one for `100-199`
is absent, and every write succeeds. -/
def fsMissingMiddle : FS where
  target := some fun _ => 0
  segments := fun s =>
    if s = "0-99" then some (List.replicate 100 1)
    else if s = "200-299" then some (List.replicate 100 3)
    else none
  writeOk := fun _ => true

/-- A file system where the target file does not exist, yet the segment
file `0-99` is present and readable and writes would succeed. -/
def fsNoTarget : FS where
  target := none
  segments := fun s => if s = "0-99" then some (List.replicate 100 7) else none
  writeOk := fun _ => true

/-! ### Closed form of the partition loop -/

/-- Closed form of `splitLoop`: starting at `x` with `n` iterations left
and exactly `n * span + r` bytes remaining (`r < span`), the loop emits
`n` ranges of width `span`, the last one extended to end at `sizeM1`. -/
theorem splitLoop_eq (span sizeM1 r : Nat) (hspan : 0 < span) (hr : r < span) :
    ∀ n x : Nat, 0 < n → sizeM1 + 1 = x + n * span + r →
      splitLoop span sizeM1 n x =
        (List.range n).map fun i =>
          (x + i * span, if i + 1 = n then sizeM1 else x + (i + 1) * span - 1) := by
  intro n
  induction n with
  | zero => intro x h0 _; omega
  | succ m ih =>
    intro x _ hsum
    rcases Nat.eq_zero_or_pos m with hm | hm
    · subst hm
      have hone : (1 : Nat) * span = span := by ring
      have hcond : (sizeM1 : Int) - ((x + span - 1 : Nat) : Int) < (span : Int) := by
        omega
      simp only [splitLoop, if_pos hcond, List.range_succ, List.range_zero,
        List.nil_append, List.map_cons, List.map_nil, List.cons.injEq, Prod.mk.injEq,
        and_true, if_true]
      omega
    · have hsucc : (m + 1) * span = m * span + span := by ring
      have hms : span ≤ m * span := Nat.le_mul_of_pos_left span hm
      have hcond : ¬ ((sizeM1 : Int) - ((x + span - 1 : Nat) : Int) < (span : Int)) := by
        omega
      simp only [splitLoop, if_neg hcond]
      have hx1 : x + span - 1 + 1 = x + span := by omega
      rw [hx1, ih (x + span) hm (by omega)]
      rw [List.range_succ_eq_map, List.map_cons, List.map_map]
      simp only [List.cons.injEq, Prod.mk.injEq]
      refine ⟨⟨by omega, ?_⟩, ?_⟩
      · rw [if_neg (by omega)]
        omega
      · apply List.map_congr_left
        intro i hi
        simp only [List.mem_range] at hi
        simp only [Function.comp_apply, Nat.succ_eq_add_one, Prod.mk.injEq]
        have h1 : (i + 1) * span = i * span + span := by ring
        have h2 : (i + 1 + 1) * span = i * span + span + span := by ring
        by_cases hc : i + 1 = m
        · rw [if_pos hc, if_pos (by omega)]
          constructor <;> omega
        · rw [if_neg hc, if_neg (by omega)]
          constructor <;> omega

/-- The partition `size_splitter` produces for a positive size: one
range of width `span` per full multiple of `span`, the last range
stretched to `size - 1`. -/
def expectedPartition (size sp : Nat) : List (Nat × Nat) :=
  (List.range (size / sp)).map fun i =>
    (i * sp, if i + 1 = size / sp then size - 1 else (i + 1) * sp - 1)

/-- For positive `size` and `part_size`, `size_splitter` succeeds and
returns `expectedPartition size (min part_size size)`. -/
theorem size_splitter_ranges_eq (size part_size : Nat)
    (hs : 0 < size) (hc : 0 < part_size) :
    size_splitter_ranges size part_size =
      some (expectedPartition size (min part_size size)) := by
  have hspan : 0 < min part_size size := by omega
  have hminj : (if part_size ≤ size then part_size else size) = min part_size size := by
    rw [Nat.min_def]
  simp only [size_splitter_ranges, hminj]
  rw [if_neg (by omega), if_neg (by omega)]
  have hsple : min part_size size ≤ size := Nat.min_le_right _ _
  have hone : 1 ≤ size / min part_size size := (Nat.one_le_div_iff hspan).mpr hsple
  have hmax : max (size / min part_size size) 1 = size / min part_size size := by omega
  rw [hmax]
  have hdm := Nat.div_add_mod size (min part_size size)
  have hcomm : size / min part_size size * min part_size size =
      min part_size size * (size / min part_size size) := by ring
  rw [splitLoop_eq (min part_size size) (size - 1) (size % min part_size size) hspan
      (Nat.mod_lt size hspan) (size / min part_size size) 0 (by omega) (by omega)]
  unfold expectedPartition
  congr 1
  apply List.map_congr_left
  intro i _
  simp [Nat.zero_add]

/-! ### Properties of the partition -/

theorem expectedPartition_length (size sp : Nat) :
    (expectedPartition size sp).length = size / sp := by
  simp [expectedPartition]

theorem expectedPartition_head (size sp : Nat) (hsp : 0 < sp) (hle : sp ≤ size) :
    ((expectedPartition size sp).map Prod.fst).head? = some 0 := by
  obtain ⟨m, hm⟩ : ∃ m, size / sp = m + 1 :=
    ⟨size / sp - 1, by have := (Nat.one_le_div_iff hsp).mpr hle; omega⟩
  unfold expectedPartition
  rw [hm, List.range_succ_eq_map]
  simp

theorem expectedPartition_last (size sp : Nat) (hsp : 0 < sp) (hle : sp ≤ size) :
    ((expectedPartition size sp).map Prod.snd).getLast? = some (size - 1) := by
  obtain ⟨m, hm⟩ : ∃ m, size / sp = m + 1 :=
    ⟨size / sp - 1, by have := (Nat.one_le_div_iff hsp).mpr hle; omega⟩
  unfold expectedPartition
  rw [hm, show m + 1 = m.succ from rfl, List.range_succ, List.map_append,
    List.map_append]
  simp [List.getLast?_concat]

theorem expectedPartition_chain (size sp : Nat) (hsp : 0 < sp) (hle : sp ≤ size) :
    List.Chain' (fun p q : Nat × Nat => p.2 + 1 = q.1) (expectedPartition size sp) := by
  obtain ⟨m, hm⟩ : ∃ m, size / sp = m + 1 :=
    ⟨size / sp - 1, by have := (Nat.one_le_div_iff hsp).mpr hle; omega⟩
  unfold expectedPartition
  rw [hm, List.chain'_map, show m + 1 = m.succ from rfl, List.chain'_range_succ]
  intro i hi
  have hne : ¬ (i + 1 = m.succ) := by omega
  have h1 : (i + 1) * sp = i * sp + sp := by ring
  simp only [Nat.succ_eq_add_one, if_neg hne]
  omega

theorem expectedPartition_pairwise (size sp : Nat) (hsp : 0 < sp) :
    List.Pairwise (fun p q : Nat × Nat => p.1 < q.1) (expectedPartition size sp) := by
  unfold expectedPartition
  rw [List.pairwise_map]
  exact (List.pairwise_lt_range _).imp
    fun h => by simpa using mul_lt_mul_of_pos_right h hsp

theorem expectedPartition_valid (size sp : Nat) (hsp : 0 < sp) (hle : sp ≤ size) :
    ∀ p ∈ expectedPartition size sp, p.1 ≤ p.2 := by
  intro p hp
  simp only [expectedPartition, List.mem_map, List.mem_range] at hp
  obtain ⟨i, hi, rfl⟩ := hp
  dsimp only
  have hdm := Nat.div_add_mod size sp
  have hmod := Nat.mod_lt size hsp
  have h1 : (i + 1) * sp = i * sp + sp := by ring
  by_cases hc : i + 1 = size / sp
  · rw [if_pos hc]
    have h2 : sp * (size / sp) = i * sp + sp := by rw [← hc]; ring
    omega
  · rw [if_neg hc]
    omega

theorem expectedPartition_cover (size sp : Nat) (hsp : 0 < sp) (hle : sp ≤ size) :
    ∀ k, (∃ p ∈ expectedPartition size sp, p.1 ≤ k ∧ k ≤ p.2) ↔ k ≤ size - 1 := by
  intro k
  have hdm := Nat.div_add_mod size sp
  have hmod := Nat.mod_lt size hsp
  have hone : 1 ≤ size / sp := (Nat.one_le_div_iff hsp).mpr hle
  constructor
  · rintro ⟨p, hp, hpk, hkp⟩
    simp only [expectedPartition, List.mem_map, List.mem_range] at hp
    obtain ⟨i, hi, rfl⟩ := hp
    dsimp only at hpk hkp
    by_cases hc : i + 1 = size / sp
    · rw [if_pos hc] at hkp
      omega
    · rw [if_neg hc] at hkp
      have h1 : (i + 1) * sp ≤ size / sp * sp := Nat.mul_le_mul_right sp (by omega)
      have h2 : size / sp * sp = sp * (size / sp) := by ring
      have h3 : (i + 1) * sp = i * sp + sp := by ring
      omega
  · intro hk
    have hkdm := Nat.div_add_mod k sp
    have hkmod := Nat.mod_lt k hsp
    have hdms := Nat.div_mul_le_self k sp
    by_cases hc : k / sp < size / sp - 1
    · refine ⟨_, List.mem_map_of_mem _ (List.mem_range.mpr (show k / sp < size / sp by omega)),
        ?_, ?_⟩
      · dsimp only
        exact hdms
      · dsimp only
        rw [if_neg (by omega)]
        have h1 : (k / sp + 1) * sp = sp * (k / sp) + sp := by ring
        omega
    · refine ⟨_, List.mem_map_of_mem _ (List.mem_range.mpr (show size / sp - 1 < size / sp by omega)),
        ?_, ?_⟩
      · dsimp only
        have h1 : (size / sp - 1) * sp ≤ k / sp * sp := Nat.mul_le_mul_right sp (by omega)
        omega
      · dsimp only
        rw [if_pos (by omega)]
        omega

/-! ### Claim theorems: the partitioner -/

/-- Claim C1: for every `size > 0` and `max_chunk > 0` the partition
returned by `size_splitter` starts at 0, ends at `size - 1`, is
contiguous and gapless (each range's end + 1 is the next range's
start), has every range non-degenerate, is strictly increasing, and
its ranges cover exactly the offsets `0 .. size - 1`. -/
theorem size_splitter_partition_correct (size part_size : Nat)
    (hs : 0 < size) (hc : 0 < part_size) :
    ∃ l, size_splitter_ranges size part_size = some l ∧
      (l.map Prod.fst).head? = some 0 ∧
      (l.map Prod.snd).getLast? = some (size - 1) ∧
      List.Chain' (fun p q : Nat × Nat => p.2 + 1 = q.1) l ∧
      List.Pairwise (fun p q : Nat × Nat => p.1 < q.1) l ∧
      (∀ p ∈ l, p.1 ≤ p.2) ∧
      (∀ k, (∃ p ∈ l, p.1 ≤ k ∧ k ≤ p.2) ↔ k ≤ size - 1) := by
  have hsp : 0 < min part_size size := by omega
  have hle : min part_size size ≤ size := Nat.min_le_right _ _
  exact ⟨_, size_splitter_ranges_eq size part_size hs hc,
    expectedPartition_head _ _ hsp hle,
    expectedPartition_last _ _ hsp hle,
    expectedPartition_chain _ _ hsp hle,
    expectedPartition_pairwise _ _ hsp,
    expectedPartition_valid _ _ hsp hle,
    expectedPartition_cover _ _ hsp hle⟩

/-- Witness for C1 at `size = 1000`, `max_chunk = 400`. -/
theorem size_splitter_partition_correct_witness :
    0 < 1000 ∧ 0 < 400 ∧
      (∃ l, size_splitter_ranges 1000 400 = some l ∧
        (l.map Prod.fst).head? = some 0 ∧
        (l.map Prod.snd).getLast? = some (1000 - 1) ∧
        List.Chain' (fun p q : Nat × Nat => p.2 + 1 = q.1) l ∧
        List.Pairwise (fun p q : Nat × Nat => p.1 < q.1) l ∧
        (∀ p ∈ l, p.1 ≤ p.2) ∧
        (∀ k, (∃ p ∈ l, p.1 ≤ k ∧ k ≤ p.2) ↔ k ≤ 1000 - 1)) :=
  ⟨by decide, by decide,
    size_splitter_partition_correct 1000 400 (by decide) (by decide)⟩

theorem expectedPartition_last_mem (size sp : Nat) (hsp : 0 < sp) (hle : sp ≤ size) :
    (expectedPartition size sp).getLast? = some ((size / sp - 1) * sp, size - 1) := by
  obtain ⟨m, hm⟩ : ∃ m, size / sp = m + 1 :=
    ⟨size / sp - 1, by have := (Nat.one_le_div_iff hsp).mpr hle; omega⟩
  unfold expectedPartition
  rw [hm, show m + 1 = m.succ from rfl, List.range_succ, List.map_append]
  simp [List.getLast?_concat]

theorem expectedPartition_last_len (size sp : Nat) (hsp : 0 < sp) (hle : sp ≤ size) :
    ∀ p, (expectedPartition size sp).getLast? = some p → p.2 + 1 - p.1 ≤ 2 * sp - 1 := by
  intro p hp
  rw [expectedPartition_last_mem size sp hsp hle] at hp
  obtain rfl := (Option.some.inj hp).symm
  obtain ⟨m, hm⟩ : ∃ m, size / sp = m + 1 :=
    ⟨size / sp - 1, by have := (Nat.one_le_div_iff hsp).mpr hle; omega⟩
  have hdm := Nat.div_add_mod size sp
  have hmod := Nat.mod_lt size hsp
  rw [hm]
  dsimp only
  have h1 : sp * (m + 1) = m * sp + sp := by ring
  rw [hm] at hdm
  have h2 : (m + 1 - 1) * sp = m * sp := by simp
  omega

theorem expectedPartition_dropLast_len (size sp : Nat) (hsp : 0 < sp) (hle : sp ≤ size) :
    ∀ p ∈ (expectedPartition size sp).dropLast, p.2 + 1 - p.1 = sp := by
  obtain ⟨m, hm⟩ : ∃ m, size / sp = m + 1 :=
    ⟨size / sp - 1, by have := (Nat.one_le_div_iff hsp).mpr hle; omega⟩
  intro p hp
  unfold expectedPartition at hp
  rw [hm, show m + 1 = m.succ from rfl, List.range_succ, List.map_append] at hp
  simp only [List.map_cons, List.map_nil, List.dropLast_concat] at hp
  simp only [List.mem_map, List.mem_range] at hp
  obtain ⟨i, hi, rfl⟩ := hp
  dsimp only
  rw [if_neg (by omega)]
  have h1 : (i + 1) * sp = i * sp + sp := by ring
  omega

/-- Claim C4 counterexample: at `size = 1000`, `max_chunk = 400` the
partitioner does not return the three ranges of the claim — it computes
`parts = 1000 // 400 = 2` and folds the remainder into the second
range. -/
theorem size_splitter_1000_400_counterexample :
    size_splitter_ranges 1000 400 ≠ some [(0, 399), (400, 799), (800, 999)] := by
  decide

/-- Claim C4 (amended): the partitioner applied to `size = 1000`,
`max_chunk = 400` returns exactly the two ranges
`[(0, 399), (400, 999)]`, serialized `["0-399", "400-999"]`. -/
theorem size_splitter_1000_400 :
    size_splitter_ranges 1000 400 = some [(0, 399), (400, 999)] ∧
      size_splitter 1000 400 = some ["0-399", "400-999"] := by
  exact ⟨by decide, by rfl⟩

/-- Claim C5 counterexample: at `size = 1000`, `max_chunk = 400` the
partition has two ranges (so the single-range exception does not
apply, and `max_chunk < size`), yet the last range `(400, 999)` has
length `600 > 400`. -/
theorem size_splitter_chunk_bound_counterexample :
    size_splitter_ranges 1000 400 = some [(0, 399), (400, 999)] ∧
      400 < 1000 ∧ 400 < 999 + 1 - 400 := by
  decide

/-- Claim C5 (amended): every range except the last has length at most
`max_chunk` (indeed exactly `min max_chunk size`); the last range may
exceed `max_chunk`, but its length is at most
`2 * min max_chunk size - 1`. -/
theorem size_splitter_chunk_bound (size part_size : Nat)
    (hs : 0 < size) (hc : 0 < part_size) :
    ∃ l, size_splitter_ranges size part_size = some l ∧
      (∀ p ∈ l.dropLast, p.2 + 1 - p.1 ≤ part_size) ∧
      (∀ p, l.getLast? = some p → p.2 + 1 - p.1 ≤ 2 * min part_size size - 1) := by
  have hsp : 0 < min part_size size := by omega
  have hle : min part_size size ≤ size := Nat.min_le_right _ _
  refine ⟨_, size_splitter_ranges_eq size part_size hs hc, ?_, ?_⟩
  · intro p hp
    have := expectedPartition_dropLast_len size (min part_size size) hsp hle p hp
    omega
  · exact expectedPartition_last_len size (min part_size size) hsp hle

/-- Witness for the amended C5 at `size = 1000`, `max_chunk = 400`. -/
theorem size_splitter_chunk_bound_witness :
    0 < 1000 ∧ 0 < 400 ∧
      (∃ l, size_splitter_ranges 1000 400 = some l ∧
        (∀ p ∈ l.dropLast, p.2 + 1 - p.1 ≤ 400) ∧
        (∀ p, l.getLast? = some p → p.2 + 1 - p.1 ≤ 2 * min 400 1000 - 1)) :=
  ⟨by decide, by decide, size_splitter_chunk_bound 1000 400 (by decide) (by decide)⟩

/-- Claim C6: with `span = min max_chunk size` and
`num_chunks = max (size / span) 1`, the partitioner returns exactly
`num_chunks` ranges, and the last range's length is at most
`2 * span - 1` (it exceeds `span` by at most `span - 1` bytes). -/
theorem size_splitter_chunk_count (size part_size : Nat)
    (hs : 0 < size) (hc : 0 < part_size) :
    ∃ l, size_splitter_ranges size part_size = some l ∧
      l.length = max (size / min part_size size) 1 ∧
      (∀ p, l.getLast? = some p → p.2 + 1 - p.1 ≤ 2 * min part_size size - 1) := by
  have hsp : 0 < min part_size size := by omega
  have hle : min part_size size ≤ size := Nat.min_le_right _ _
  have hone : 1 ≤ size / min part_size size := (Nat.one_le_div_iff hsp).mpr hle
  refine ⟨_, size_splitter_ranges_eq size part_size hs hc, ?_, ?_⟩
  · rw [expectedPartition_length]
    omega
  · exact expectedPartition_last_len size (min part_size size) hsp hle

/-- Witness for C6 at `size = 1000`, `max_chunk = 400`. -/
theorem size_splitter_chunk_count_witness :
    0 < 1000 ∧ 0 < 400 ∧
      (∃ l, size_splitter_ranges 1000 400 = some l ∧
        l.length = max (1000 / min 400 1000) 1 ∧
        (∀ p, l.getLast? = some p → p.2 + 1 - p.1 ≤ 2 * min 400 1000 - 1)) :=
  ⟨by decide, by decide, size_splitter_chunk_count 1000 400 (by decide) (by decide)⟩

/-- Claim C8: `size_splitter` applied to `size = 0` returns exactly the
sentinel singleton, for every `max_chunk` (the `size == 0` branch
returns before `max_chunk` is ever read). -/
theorem size_splitter_zero (part_size : Nat) :
    size_splitter_ranges 0 part_size = some [(0, 0)] ∧
      size_splitter 0 part_size = some ["0-0"] :=
  ⟨rfl, rfl⟩

/-! ### Claim theorems: the range-size calculator -/

/-- Claim C7: `get_seg_size` on a range string whose two endpoints parse
as `a` and `b` returns `b - a + 1` when `b > 0` and the sentinel `0`
otherwise; in particular `get_seg_size "200-1000" = 801` and
`get_seg_size "0-0" = 0`. -/
theorem get_seg_size_spec :
    (∀ (a b : Int) (seg : String), parseRange seg = some (a, b) →
      get_seg_size seg = some (if b > 0 then b - a + 1 else 0)) ∧
      get_seg_size "200-1000" = some 801 ∧ get_seg_size "0-0" = some 0 := by
  refine ⟨?_, by decide, by decide⟩
  intro a b seg h
  simp [get_seg_size, h]

/-- Witness for C7's conditional part at `"200-1000"`. -/
theorem get_seg_size_spec_witness :
    parseRange "200-1000" = some (200, 1000) ∧
      get_seg_size "200-1000" = some (if (1000 : Int) > 0 then 1000 - 200 + 1 else 0) :=
  ⟨by decide, get_seg_size_spec.1 200 1000 "200-1000" (by decide)⟩

/-! ### Claim theorems: the merger -/

theorem mergeLoop_fst_sublist (fs : FS) :
    ∀ (snap names : List String) (t : Nat → Nat),
      ((mergeLoop fs snap names t).1).Sublist names := by
  intro snap
  induction snap with
  | nil => intro names t; exact List.Sublist.refl names
  | cons seg rest ih =>
    intro names t
    simp only [mergeLoop]
    cases hps : parseStart seg with
    | none => exact List.Sublist.refl names
    | some start =>
      cases hseg : fs.segments seg with
      | none => exact List.Sublist.refl names
      | some data =>
        cases hw : fs.writeOk seg with
        | false => simp only [hw, Bool.false_eq_true, if_false]; exact List.Sublist.refl names
        | true =>
          simp only [hw, if_true]
          exact (ih _ _).trans (List.erase_sublist seg names)

/-- Claim C9: a merge pass only shrinks the pending list: the returned
collection is a sublist of the input pending list — same relative
order, no element that was not in the input. -/
theorem append_parts_sublist (fs : FS) (segment_names : List String) :
    ((append_parts fs segment_names).1).Sublist segment_names := by
  unfold append_parts
  cases fs.target with
  | none => exact List.Sublist.refl segment_names
  | some t => exact mergeLoop_fst_sublist fs segment_names segment_names t

theorem mergeLoop_self_eq (fs : FS) :
    ∀ (names : List String) (t : Nat → Nat),
      (mergeLoop fs names names t).1 =
        names.drop (names.findIdx fun s => ! stepOk fs s) := by
  intro names
  induction names with
  | nil => intro t; rfl
  | cons seg rest ih =>
    intro t
    simp only [mergeLoop, List.findIdx_cons]
    cases hps : parseStart seg with
    | none =>
      have hpred : (! stepOk fs seg) = true := by simp [stepOk, hps]
      simp [hpred]
    | some start =>
      cases hseg : fs.segments seg with
      | none =>
        have hpred : (! stepOk fs seg) = true := by simp [stepOk, hseg]
        simp [hpred]
      | some data =>
        cases hw : fs.writeOk seg with
        | false =>
          have hpred : (! stepOk fs seg) = true := by simp [stepOk, hw]
          simp [hpred, hw]
        | true =>
          have hpred : (! stepOk fs seg) = false := by simp [stepOk, hps, hseg, hw]
          simp only [hpred, cond_false, hw, if_true, List.erase_cons_head,
            List.drop_succ_cons]
          exact ih _

/-- Claim C10: `append_parts` always returns normally (the whole loop
sits in one `try/except Exception` with `return` in `finally`, which
the total embedding reflects), and the returned pending list is a
contiguous suffix of the input: the input minus the successfully
merged prefix, starting at the first segment whose merge step failed
(the whole input when the target file cannot be opened). -/
theorem append_parts_suffix (fs : FS) (segment_names : List String) :
    (∃ k, k ≤ segment_names.length ∧
      (append_parts fs segment_names).1 = segment_names.drop k) ∧
      (append_parts fs segment_names).1 =
        (if fs.target.isSome then
          segment_names.drop (segment_names.findIdx fun s => ! stepOk fs s)
        else segment_names) := by
  have h2 : (append_parts fs segment_names).1 =
      (if fs.target.isSome then
        segment_names.drop (segment_names.findIdx fun s => ! stepOk fs s)
      else segment_names) := by
    unfold append_parts
    cases htg : fs.target with
    | none => simp
    | some t => simp [mergeLoop_self_eq]
  refine ⟨?_, h2⟩
  rw [h2]
  cases htg : fs.target with
  | none => exact ⟨0, Nat.zero_le _, by simp⟩
  | some t =>
    exact ⟨segment_names.findIdx fun s => ! stepOk fs s,
      List.findIdx_le_length _, by simp⟩

/-- Claim C2 counterexample: with pending ranges `0-99`, `100-199`,
`200-299` and only the middle segment file absent, the pass does not
continue past the failure — the single `try` around the whole loop
aborts at `100-199`, so the returned pending list is
`["100-199", "200-299"]`, not `["100-199"]`. -/
theorem append_parts_missing_counterexample :
    (append_parts fsMissingMiddle ["0-99", "100-199", "200-299"]).1 ≠ ["100-199"] := by
  decide

/-- Claim C2 (amended): in the missing-middle-segment scenario the pass
merges `0-99`, aborts on `100-199`, and returns pending
`["100-199", "200-299"]`; the target holds segment `0-99`'s bytes at
offsets `0..99` and is untouched elsewhere — in particular range
`(200, 299)` is not written. -/
theorem append_parts_missing :
    (append_parts fsMissingMiddle ["0-99", "100-199", "200-299"]).1 =
      ["100-199", "200-299"] ∧
      ∃ t, (append_parts fsMissingMiddle ["0-99", "100-199", "200-299"]).2 = some t ∧
        ∀ i, t i = if i < 100 then 1 else 0 := by
  refine ⟨by decide, ?_⟩
  refine ⟨writeAt (fun _ => 0) 0 (List.replicate 100 1), rfl, ?_⟩
  intro i
  simp only [writeAt, List.length_replicate, Nat.zero_add, Nat.sub_zero, Nat.zero_le,
    true_and]
  by_cases hi : i < 100
  · rw [if_pos hi, if_pos hi, List.getD_eq_getElem?_getD, List.getElem?_replicate,
      if_pos hi]
    rfl
  · rw [if_neg hi, if_neg hi]

/-- Claim C3 counterexample: the target is opened with mode `rb+`,
which fails on a missing file and never creates one; the failure is
caught by the function's own `except`/`finally`, which returns the
untouched pending list normally — nothing was merged or created even
though the segment `0-99` was present and readable. -/
theorem append_parts_no_target_counterexample :
    append_parts fsNoTarget ["0-99"] = (["0-99"], none) ∧
      (fsNoTarget.segments "0-99").isSome = true :=
  ⟨rfl, by decide⟩

/-- Claim C3 (amended): when the target file cannot be opened (mode
`rb+` on an absent file — it is never created), `append_parts` catches
the failure internally and returns normally, with the pending list
completely unmutated and the target still absent. -/
theorem append_parts_no_target (fs : FS) (segment_names : List String)
    (h : fs.target = none) :
    append_parts fs segment_names = (segment_names, none) := by
  unfold append_parts
  rw [h]

/-- Witness for the amended C3. -/
theorem append_parts_no_target_witness :
    fsNoTarget.target = none ∧
      append_parts fsNoTarget ["0-99", "100-199"] = (["0-99", "100-199"], none) :=
  ⟨rfl, append_parts_no_target fsNoTarget ["0-99", "100-199"] rfl⟩

end PyIDM
